import Mathlib

/-
Verification of the histogram metric engine (package `metrics`).

The Go source is shallowly embedded: float64 values are modelled as exact
rationals (ℚ), Go ints as ℤ/ℕ, the Go map from signature strings to series
as an association list, and panics as `Option.none` (or a dedicated
constructor of a result type).  The abstract `Bucket` interface consumed by
the engine is modelled as a record of operations over an opaque state type.
-/

set_option linter.unusedVariables false

namespace ClientGolang

/-- Truncation toward zero of a rational number, modelling Go's conversion
`int(x)` from `float64` to `int`. -/
def ratTrunc (q : ℚ) : ℤ :=
  if 0 ≤ q then q.floor else -((-q).floor)

/-- Modelled from the spec: `utility.LabelsToSignature` is an external
collaborator (its source is not part of the core); the spec only requires a
deterministic canonical string derived from the label map.  We use a simple
deterministic encoding. -/
def LabelsToSignature (labels : List (String × String)) : String :=
  (labels.map (fun p => p.1 ++ "=" ++ p.2 ++ ";")).foldl (fun a b => a ++ b) ""

/-- Modelled from the spec: the external Bucket capability contract
(spec section 6) that the engine consumes: `ingest(value)`, `count()`,
`valueAt(index)`, `reset()`.  `σ` is the opaque bucket state. -/
structure BucketOps (σ : Type) where
  add : σ → ℚ → σ
  observations : σ → ℕ
  valueForIndex : σ → ℤ → ℚ
  reset : σ → σ

/-- Embedding of the Go struct `histogramValue`: a series' bucket array
paired with its label set. -/
structure histogramValue (σ : Type) where
  buckets : List σ
  labels : List (String × String)

/-- Embedding of the Go struct `histogram`: the engine state.  The Go map
`values` keyed by signature is modelled as an association list; the mutex is
not modelled (all operations are translated atomically). -/
structure histogram (σ : Type) where
  bucketMaker : Unit → σ
  bucketStarts : List ℚ
  values : List (String × histogramValue σ)
  reportablePercentiles : List ℚ

/-- Embedding of the Go struct `HistogramSpecification`. -/
structure HistogramSpecification (σ : Type) where
  BucketBuilder : Unit → σ
  ReportablePercentiles : List ℚ
  Starts : List ℚ

variable {σ : Type}

/-- Embedding of `NewHistogram`: it copies the specification's fields into a
fresh engine verbatim; no validation of the specification takes place. -/
def NewHistogram (specification : HistogramSpecification σ) : histogram σ :=
  { bucketMaker := specification.BucketBuilder
    bucketStarts := specification.Starts
    reportablePercentiles := specification.ReportablePercentiles
    values := [] }

/-- Lookup in the signature-to-series association list (Go `h.values[signature]`). -/
def lookupSignature : List (String × histogramValue σ) → String → Option (histogramValue σ)
  | [], _ => none
  | (s, v) :: rest, sig => if s = sig then some v else lookupSignature rest sig

/-- Store into the signature-to-series association list (Go map assignment,
together with the pointer-aliased in-place mutation of a found series). -/
def storeSignature : List (String × histogramValue σ) → String → histogramValue σ →
    List (String × histogramValue σ)
  | [], sig, v => [(sig, v)]
  | (s, v0) :: rest, sig, v =>
    if s = sig then (sig, v) :: rest else (s, v0) :: storeSignature rest sig v

/-- Embedding of the routing loop inside `Add` (lines 131-139): track the last
index whose start is not greater than the value, stopping at the first
boundary exceeding the value. -/
def bucketIndexLoop (value : ℚ) : List ℚ → ℕ → ℕ → ℕ
  | [], _, lastIndex => lastIndex
  | bucketStart :: rest, i, lastIndex =>
    if value < bucketStart then lastIndex else bucketIndexLoop value rest (i + 1) i

/-- Bucket index chosen by `Add` for a value, starting from `lastIndex = 0`. -/
def bucketIndexFor (bucketStarts : List ℚ) (value : ℚ) : ℕ :=
  bucketIndexLoop value bucketStarts 0 0

/-- Embedding of `histogram.Add`.  A `nil` label map (modelled as `none`) is
replaced by the empty map; a missing series is created from the factory with
one bucket per boundary; the value is routed and forwarded to that bucket's
ingestion operation.  `none` models the index-out-of-range panic that occurs
when the bucket array is empty (`histogram.buckets[lastIndex]`). -/
def Add (ops : BucketOps σ) (h : histogram σ) (labels : Option (List (String × String)))
    (value : ℚ) : Option (histogram σ) :=
  let labels' := labels.getD []
  let signature := LabelsToSignature labels'
  let hv : histogramValue σ :=
    match lookupSignature h.values signature with
    | some original => original
    | none =>
      { buckets := List.replicate h.bucketStarts.length (h.bucketMaker ())
        labels := labels' }
  let lastIndex := bucketIndexFor h.bucketStarts value
  match hv.buckets[lastIndex]? with
  | none => none
  | some bucket =>
    some { h with
      values := storeSignature h.values signature
        { hv with buckets := hv.buckets.set lastIndex (ops.add bucket value) } }

/-- Embedding of `previousCumulativeObservations`.  The out-of-range default
never fires at call sites (the source always passes an in-range index). -/
def previousCumulativeObservations (cumulativeObservations : List ℕ) (bucketIndex : ℕ) : ℕ :=
  if bucketIndex = 0 then 0 else cumulativeObservations.getD (bucketIndex - 1) 0

/-- Embedding of `prospectiveIndexForPercentile`:
`int(percentile * float64(totalObservations-1))`. -/
def prospectiveIndexForPercentile (percentile : ℚ) (totalObservations : ℤ) : ℤ :=
  ratTrunc (percentile * ((totalObservations : ℚ) - 1))

/-- Running cumulative sums of per-bucket observation counts, as accumulated by
the first loop of `bucketForPercentile`. -/
def cumulativeSums : List ℕ → ℕ → List ℕ
  | [], _ => []
  | o :: rest, acc => (acc + o) :: cumulativeSums rest (acc + o)

/-- Embedding of the scan inside `nextNonEmptyBucketElement`: first index
`i ≥ start` (within `fuel` steps) whose bucket is non-empty. -/
def nextNonEmptyFrom (observationsByBucket : List ℕ) : ℕ → ℕ → Option ℕ
  | _, 0 => none
  | i, fuel + 1 =>
    if observationsByBucket.getD i 0 = 0 then nextNonEmptyFrom observationsByBucket (i + 1) fuel
    else some i

/-- Embedding of `nextNonEmptyBucketElement`: the returned pair is the bucket
index and the sub-index 0; `none` models the fatal panic raised when no
remaining bucket holds observations. -/
def nextNonEmptyBucketElement (observationsByBucket : List ℕ) (currentIndex bucketCount : ℕ) :
    Option (ℕ × ℤ) :=
  (nextNonEmptyFrom observationsByBucket currentIndex (bucketCount - currentIndex)).map
    (fun i => (i, 0))

/-- Outcome of the bucket-search loop of `bucketForPercentile`: a bucket index
with a sub-index, the fall-through to `(&histogram.buckets[0], 0)` after the
loop, or the panic inside `nextNonEmptyBucketElement`. -/
inductive BucketSelection where
  | selected (bucketIndex : ℕ) (subIndex : ℤ)
  | fellThrough
  | panicked
deriving DecidableEq, Repr

/-- Embedding of the main loop of `bucketForPercentile` (lines 237-263),
iterating over the cumulative-count list with its index. -/
def searchLoop (observationsByBucket cumulativeAll : List ℕ) (prospectiveIndex : ℤ) :
    List ℕ → ℕ → BucketSelection
  | [], _ => .fellThrough
  | cumulativeObservation :: rest, i =>
    if cumulativeObservation = 0 then
      searchLoop observationsByBucket cumulativeAll prospectiveIndex rest (i + 1)
    else if prospectiveIndex ≤ (cumulativeObservation : ℤ) then
      let subIndex : ℤ :=
        prospectiveIndex - (previousCumulativeObservations cumulativeAll i : ℤ)
      if (observationsByBucket.getD i 0 : ℤ) = subIndex then
        match nextNonEmptyBucketElement observationsByBucket (i + 1)
            observationsByBucket.length with
        | some (j, s) => .selected j s
        | none => .panicked
      else .selected i subIndex
    else searchLoop observationsByBucket cumulativeAll prospectiveIndex rest (i + 1)

/-- Embedding of `bucketForPercentile` on the per-bucket observation counts of
a series.  The bucket count equals the length of the observation list (the
engine invariant `len(bucketStarts) = len(buckets)` holds for every series
created by `Add`). -/
def bucketForPercentileObs (observationsByBucket : List ℕ) (percentile : ℚ) : BucketSelection :=
  let cumulative := cumulativeSums observationsByBucket 0
  let totalObservations : ℤ := (observationsByBucket.sum : ℤ)
  let prospectiveIndex := prospectiveIndexForPercentile percentile totalObservations
  searchLoop observationsByBucket cumulative prospectiveIndex cumulative 0

/-- Embedding of `percentile` restricted to one series' bucket array: resolve
the selection to the selected bucket's `ValueForIndex`.  `none` models the two
panics (the `nextNonEmptyBucketElement` panic and indexing `buckets[0]` on an
empty bucket array in the fall-through return). -/
def percentileOfBuckets (ops : BucketOps σ) (buckets : List σ) (p : ℚ) : Option ℚ :=
  match bucketForPercentileObs (buckets.map ops.observations) p with
  | .selected b s => (buckets[b]?).map (fun bk => ops.valueForIndex bk s)
  | .fellThrough => (buckets[0]?).map (fun bk => ops.valueForIndex bk 0)
  | .panicked => none

/-- Embedding of `histogram.percentile`: look the series up by signature and
estimate the requested percentile from its buckets.  `none` models a panic
(missing signature is a nil dereference in Go; it never occurs at call
sites, which iterate existing signatures). -/
def percentile (ops : BucketOps σ) (h : histogram σ) (signature : String) (p : ℚ) : Option ℚ :=
  match lookupSignature h.values signature with
  | none => none
  | some hv => percentileOfBuckets ops hv.buckets p

/-- Embedding of `AsMarshallable`, reduced to the payload the claims are
about: one entry per tracked series carrying its labels and the estimated
value of each reportable percentile (the constant type/value wrapper keys are
omitted). -/
def AsMarshallable (ops : BucketOps σ) (h : histogram σ) :
    List (List (String × String) × List (ℚ × Option ℚ)) :=
  h.values.map (fun p =>
    (p.2.labels, h.reportablePercentiles.map (fun q => (q, percentile ops h p.1 q))))

/-- Embedding of the loop of `ResetAll`: every bucket of every series has its
`Reset` operation invoked, then the series is deleted.  The first component is
the resulting (empty) association list; the second is the trace of bucket
states on which `Reset` was invoked, in iteration order (their reset results
are discarded with the deleted series, exactly as in the source). -/
def resetAllLoop (ops : BucketOps σ) :
    List (String × histogramValue σ) → List (String × histogramValue σ) × List σ
  | [] => ([], [])
  | (sig, v) :: rest =>
    let r := resetAllLoop ops rest
    (r.1, v.buckets ++ r.2)

/-- Embedding of `histogram.ResetAll`: clear the series map, returning the
trace of buckets whose `Reset` was invoked. -/
def ResetAll (ops : BucketOps σ) (h : histogram σ) : histogram σ × List σ :=
  let r := resetAllLoop ops h.values
  ({ h with values := r.1 }, r.2)

/-- Embedding of the loop of `LogarithmicSizedBucketsFor`: `j` starts at `0.0`
and is updated to `2^(i+1)` after the iteration for index `i`. -/
def logarithmicBucketsLoop : ℕ → ℕ → ℚ → List ℚ
  | 0, _, _ => []
  | n + 1, i, j => j :: logarithmicBucketsLoop n (i + 1) ((2 : ℚ) ^ (i + 1))

/-- Embedding of `LogarithmicSizedBucketsFor`.  The bucket count
`int(math.Ceil(math.Log2(upper)))` is the exact ceiling logarithm `Int.clog 2
upper`; for `upper < 1` the Go code would panic on a negative `make` length,
which is outside every claim's range, so the count is clamped with `toNat`. -/
def LogarithmicSizedBucketsFor (lower upper : ℚ) : List ℚ :=
  let bucketCount := (Int.clog 2 upper).toNat
  logarithmicBucketsLoop bucketCount 0 0

/-- Embedding of `bucketForPercentile` on the engine: resolve the signature,
run the search on the series' counts and return the selected bucket index and
sub-index.  `none` models the panics (missing series, the
`nextNonEmptyBucketElement` panic, and the fall-through indexing of
`buckets[0]` on an empty bucket array). -/
def bucketForPercentile (ops : BucketOps σ) (h : histogram σ) (signature : String) (p : ℚ) :
    Option (ℕ × ℤ) :=
  match lookupSignature h.values signature with
  | none => none
  | some hv =>
    match bucketForPercentileObs (hv.buckets.map ops.observations) p with
    | .selected b s => some (b, s)
    | .fellThrough => if 0 < hv.buckets.length then some (0, 0) else none
    | .panicked => none

/-- Total of the reported bucket counts of the series stored under a
signature; 0 when no series is tracked for it. -/
def observationTotalFor (ops : BucketOps σ) (h : histogram σ) (signature : String) : ℕ :=
  match lookupSignature h.values signature with
  | none => 0
  | some hv => (hv.buckets.map ops.observations).sum

/-- Modelled from the spec: an exact-storage Bucket implementation (one of the
collaborator strategies outside the core) that keeps every ingested value in
arrival order; `count` is the number stored and `valueAt` is array access. -/
def exactBucketOps : BucketOps (List ℚ) :=
  { add := fun s v => s ++ [v]
    observations := fun s => s.length
    valueForIndex := fun s i => if h : 0 ≤ i ∧ i.toNat < s.length then s.get ⟨i.toNat, h.2⟩ else 0
    reset := fun _ => [] }

/-- Modelled from the spec: a Bucket implementation that stores values in
arrival order but distorts the fifth ingested value upward by 97.  It
satisfies the Bucket capability contract (count, valueAt on valid indices,
reset); it witnesses that the contract alone does not tie `valueAt` to the
bucket's interval. -/
def skewBucketOps : BucketOps (List ℚ) :=
  { exactBucketOps with
    add := fun s v => s ++ [if s.length = 4 then v + 97 else v] }

/-- Specification used by the concrete scenarios: boundaries `[0, 10, 20]`. -/
def scenarioSpecification (builder : Unit → List ℚ) : HistogramSpecification (List ℚ) :=
  { BucketBuilder := builder
    ReportablePercentiles := [1 / 2, 1]
    Starts := [0, 10, 20] }

/-- Engine state after 5 Adds of value 3 and 5 Adds of value 25 under the
empty label set, with exact-storage buckets. -/
def scenarioEngine : Option (histogram (List ℚ)) :=
  ([3, 3, 3, 3, 3, 25, 25, 25, 25, 25] : List ℚ).foldlM
    (fun s v => Add exactBucketOps s (some []) v)
    (NewHistogram (scenarioSpecification (fun _ => [])))

/-- Engine state after the same ten Adds, with the skewed buckets. -/
def skewEngine : Option (histogram (List ℚ)) :=
  ([3, 3, 3, 3, 3, 25, 25, 25, 25, 25] : List ℚ).foldlM
    (fun s v => Add skewBucketOps s (some []) v)
    (NewHistogram (scenarioSpecification (fun _ => [])))

/-- Run a finite sequence of `Add` calls in order under one label set; a
panicking `Add` aborts the sequence (`none`). -/
def addSequence (ops : BucketOps σ) (labels : Option (List (String × String))) :
    histogram σ → List ℚ → Option (histogram σ)
  | h, [] => some h
  | h, v :: rest =>
    match Add ops h labels v with
    | none => none
    | some h' => addSequence ops labels h' rest

/-- The engine value `scenarioEngine` evaluates to. -/
def scenarioFinal : histogram (List ℚ) :=
  { bucketMaker := fun _ => []
    bucketStarts := [0, 10, 20]
    values := [("", { buckets := [[3, 3, 3, 3, 3], [], [25, 25, 25, 25, 25]], labels := [] })]
    reportablePercentiles := [1 / 2, 1] }

/-- The series stored in `skewEngine` under the empty label set: the skewed
bucket contents after the ten routed Adds. -/
def skewSeries : histogramValue (List ℚ) :=
  { buckets := [[3, 3, 3, 3, 100], [], [25, 25, 25, 25, 122]]
    labels := [] }

/-- Engine literal used to witness C8: one tracked series under the empty
signature holding one observation. -/
def w8engine : histogram (List ℚ) :=
  { bucketMaker := fun _ => []
    bucketStarts := [0, 10, 20]
    values := [("", { buckets := [[3], [], []], labels := [] })]
    reportablePercentiles := [1 / 2] }

/-- Engine expected after resetting `w8engine` and adding value 7. -/
def w8after : histogram (List ℚ) :=
  { bucketMaker := fun _ => []
    bucketStarts := [0, 10, 20]
    values := [("", { buckets := [[7], [], []], labels := [] })]
    reportablePercentiles := [1 / 2] }

/-- Specification with an empty boundary array, used to witness C10. -/
def w10specification : HistogramSpecification (List ℚ) :=
  { BucketBuilder := fun _ => []
    ReportablePercentiles := [1 / 2]
    Starts := [] }

/-- C1: on boundaries `[0, 10, 20]` with 5 observations of 3 and 5 of 25
under the empty label set and exact-storage buckets, the percentile query for
0.5 selects bucket 0 at sub-index 4 and returns 3, the query for 1.0 selects
bucket 2 at sub-index 4 and returns 25, the prospective indices being
`floor(0.5*9) = 4` and `floor(1.0*9) = 9`. -/
theorem c1_percentile_scenario :
    (scenarioEngine.bind fun h =>
        bucketForPercentile exactBucketOps h (LabelsToSignature []) (1 / 2)) = some (0, 4) ∧
    (scenarioEngine.bind fun h =>
        percentile exactBucketOps h (LabelsToSignature []) (1 / 2)) = some 3 ∧
    (scenarioEngine.bind fun h =>
        bucketForPercentile exactBucketOps h (LabelsToSignature []) 1) = some (2, 4) ∧
    (scenarioEngine.bind fun h =>
        percentile exactBucketOps h (LabelsToSignature []) 1) = some 25 ∧
    (scenarioEngine.map fun h =>
        observationTotalFor exactBucketOps h (LabelsToSignature [])) = some 10 ∧
    prospectiveIndexForPercentile (1 / 2) 10 = 4 ∧
    prospectiveIndexForPercentile 1 10 = 9 := by
  with_unfolding_all exact ⟨rfl, rfl, rfl, rfl, rfl, rfl, rfl⟩

/-- Length of the `LogarithmicSizedBucketsFor` loop output. -/
theorem logarithmicBucketsLoop_length (n : ℕ) :
    ∀ (i : ℕ) (j : ℚ), (logarithmicBucketsLoop n i j).length = n := by
  induction n with
  | zero => intro i j; rfl
  | succ m ih => intro i j; simp [logarithmicBucketsLoop, ih]

/-- Closed form of the `LogarithmicSizedBucketsFor` loop: the initial
accumulator followed by the powers of two from exponent `i+1` upward. -/
theorem logarithmicBucketsLoop_eq (n : ℕ) :
    ∀ (i : ℕ) (j : ℚ), logarithmicBucketsLoop (n + 1) i j =
      j :: (List.range' (i + 1) n).map (fun t => (2 : ℚ) ^ t) := by
  induction n with
  | zero => intro i j; rfl
  | succ m ih =>
    intro i j
    rw [show logarithmicBucketsLoop (m + 2) i j =
        j :: logarithmicBucketsLoop (m + 1) (i + 1) ((2 : ℚ) ^ (i + 1)) from rfl]
    rw [ih (i + 1) ((2 : ℚ) ^ (i + 1)), List.range'_succ]
    rfl

/-- C3 counterexample: `LogarithmicSizedBucketsFor(_, 10)` yields
`[0, 2, 4, 8]`, not the claimed `[1, 2, 4, 8]` (the loop's accumulator starts
at 0, so index 0 holds 0 rather than `2^0`). -/
theorem c3_counterexample :
    LogarithmicSizedBucketsFor 0 10 = [0, 2, 4, 8] ∧
    LogarithmicSizedBucketsFor 0 10 ≠ [1, 2, 4, 8] := by
  have h : LogarithmicSizedBucketsFor 0 10 = [0, 2, 4, 8] := by with_unfolding_all rfl
  refine ⟨h, ?_⟩
  rw [h]
  intro hc
  have : (0 : ℚ) = 1 := by injection hc
  norm_num at this

/-- C3 amended: for every `upper > 1`, `LogarithmicSizedBucketsFor(lower,
upper)` returns an array of length `ceil(log2(upper))` whose element at index
0 is 0 and whose element at index `i ≥ 1` is `2^i`, ignoring the `lower`
parameter entirely; in particular `LogarithmicSizedBucketsFor(_, 10)` yields
`[0, 2, 4, 8]`. -/
theorem c3_amended (lower upper : ℚ) (h : 1 < upper) :
    (((LogarithmicSizedBucketsFor lower upper).length : ℤ) = Int.clog 2 upper) ∧
    (∀ i : Fin (LogarithmicSizedBucketsFor lower upper).length,
      (LogarithmicSizedBucketsFor lower upper).get i = if i.1 = 0 then 0 else (2 : ℚ) ^ i.1) ∧
    LogarithmicSizedBucketsFor lower upper = LogarithmicSizedBucketsFor 0 upper := by
  have hclog : Int.clog 2 upper = (Nat.clog 2 ⌈upper⌉₊ : ℤ) :=
    Int.clog_of_one_le_right 2 h.le
  have hlen : (LogarithmicSizedBucketsFor lower upper).length = (Int.clog 2 upper).toNat := by
    unfold LogarithmicSizedBucketsFor
    exact logarithmicBucketsLoop_length _ 0 0
  refine ⟨?_, ?_, rfl⟩
  · rw [hlen, hclog]; simp
  · rintro ⟨iv, hv⟩
    have hi : iv < (Int.clog 2 upper).toNat := hlen ▸ hv
    have hgd : (LogarithmicSizedBucketsFor lower upper).get ⟨iv, hv⟩ =
        (LogarithmicSizedBucketsFor lower upper).getD iv 0 := by
      rw [List.getD_eq_getElem _ _ hv, List.get_eq_getElem]
    rw [hgd]
    rcases hn : (Int.clog 2 upper).toNat with _ | m
    · rw [hn] at hi; exact absurd hi (Nat.not_lt_zero _)
    · have hlist : LogarithmicSizedBucketsFor lower upper =
          (0 : ℚ) :: (List.range' 1 m).map (fun t => (2 : ℚ) ^ t) := by
        unfold LogarithmicSizedBucketsFor
        rw [hn]
        exact logarithmicBucketsLoop_eq m 0 0
      rw [hn] at hi
      rcases iv with _ | k
      · simp [hlist]
      · have hk : k < m := by omega
        have hlenmap : k < ((List.range' 1 m).map (fun t => (2 : ℚ) ^ t)).length := by
          simp [hk]
        simp only [Fin.val_mk]
        rw [hlist]
        show ((List.range' 1 m).map (fun t => (2 : ℚ) ^ t)).getD k 0 = _
        rw [List.getD_eq_getElem _ _ hlenmap, List.getElem_map, List.getElem_range' k]
        simp [Nat.add_comm 1 k]

/-- Witness for the amended C3 claim at `lower = 5`, `upper = 10`. -/
theorem c3_amended_witness :
    (1 : ℚ) < 10 ∧
    ((((LogarithmicSizedBucketsFor 5 10).length : ℤ) = Int.clog 2 (10 : ℚ)) ∧
      (∀ i : Fin (LogarithmicSizedBucketsFor 5 10).length,
        (LogarithmicSizedBucketsFor 5 10).get i = if i.1 = 0 then 0 else (2 : ℚ) ^ i.1) ∧
      LogarithmicSizedBucketsFor 5 10 = LogarithmicSizedBucketsFor 0 10) :=
  ⟨by norm_num, c3_amended 5 10 (by norm_num)⟩

/-- The series map produced by the `ResetAll` loop is empty: every visited
entry is deleted. -/
theorem resetAllLoop_fst (ops : BucketOps σ) (l : List (String × histogramValue σ)) :
    (resetAllLoop ops l).1 = [] := by
  induction l with
  | nil => rfl
  | cons e rest ih => simp [resetAllLoop, ih]

/-- Every bucket of every entry visited by the `ResetAll` loop appears in the
trace of buckets whose `Reset` was invoked. -/
theorem resetAllLoop_mem (ops : BucketOps σ) (l : List (String × histogramValue σ))
    (e : String × histogramValue σ) (he : e ∈ l) (b : σ) (hb : b ∈ e.2.buckets) :
    b ∈ (resetAllLoop ops l).2 := by
  induction l with
  | nil => exact absurd he (List.not_mem_nil e)
  | cons e0 rest ih =>
    rcases List.mem_cons.1 he with h0 | h0
    · subst h0
      simp [resetAllLoop, hb]
    · simp [resetAllLoop, ih h0]

/-- C8: after `ResetAll` the signature-to-series mapping is empty and a
snapshot reports zero series, while the boundary array, bucket factory and
reportable percentile list are unchanged; the `Reset` operation was invoked on
every bucket of every previously tracked series; and a subsequent `Add`
recreates its series from scratch (factory-built buckets, one ingestion). -/
theorem c8_reset_all (ops : BucketOps σ) (h : histogram σ)
    (e : String × histogramValue σ) (he : e ∈ h.values) (b : σ) (hb : b ∈ e.2.buckets)
    (labels : Option (List (String × String))) (v : ℚ) (h₂ : histogram σ)
    (hAdd : Add ops (ResetAll ops h).1 labels v = some h₂) :
    (ResetAll ops h).1.values = [] ∧
    (ResetAll ops h).1.bucketStarts = h.bucketStarts ∧
    (ResetAll ops h).1.bucketMaker = h.bucketMaker ∧
    (ResetAll ops h).1.reportablePercentiles = h.reportablePercentiles ∧
    AsMarshallable ops (ResetAll ops h).1 = [] ∧
    b ∈ (ResetAll ops h).2 ∧
    h₂.values = [(LabelsToSignature (labels.getD []),
      { buckets := (List.replicate h.bucketStarts.length (h.bucketMaker ())).set
          (bucketIndexFor h.bucketStarts v) (ops.add (h.bucketMaker ()) v)
        labels := labels.getD [] })] := by
  have hempty : (ResetAll ops h).1.values = [] := by
    simp [ResetAll, resetAllLoop_fst]
  refine ⟨hempty, rfl, rfl, rfl, ?_, ?_, ?_⟩
  · unfold AsMarshallable
    rw [hempty]
    rfl
  · simpa [ResetAll] using resetAllLoop_mem ops h.values e he b hb
  · unfold Add at hAdd
    rw [hempty] at hAdd
    simp only [lookupSignature] at hAdd
    split at hAdd
    · exact absurd hAdd (by simp)
    · rename_i bucket hbucket
      rw [List.getElem?_replicate] at hbucket
      split at hbucket
      · have hbe := Option.some.inj hbucket
        have h2eq := Option.some.inj hAdd
        subst h2eq
        rw [← hbe]
        rfl
      · exact absurd hbucket (by simp)

/-- Witness for C8 at a concrete engine, bucket and subsequent Add. -/
theorem c8_reset_all_witness :
    ("", ({ buckets := [[3], [], []], labels := [] } : histogramValue (List ℚ))) ∈
        w8engine.values ∧
    ([3] : List ℚ) ∈ ({ buckets := [[3], [], []], labels := [] } :
        histogramValue (List ℚ)).buckets ∧
    Add exactBucketOps (ResetAll exactBucketOps w8engine).1 (some []) 7 = some w8after ∧
    ((ResetAll exactBucketOps w8engine).1.values = [] ∧
      (ResetAll exactBucketOps w8engine).1.bucketStarts = w8engine.bucketStarts ∧
      (ResetAll exactBucketOps w8engine).1.bucketMaker = w8engine.bucketMaker ∧
      (ResetAll exactBucketOps w8engine).1.reportablePercentiles =
        w8engine.reportablePercentiles ∧
      AsMarshallable exactBucketOps (ResetAll exactBucketOps w8engine).1 = [] ∧
      ([3] : List ℚ) ∈ (ResetAll exactBucketOps w8engine).2 ∧
      w8after.values = [(LabelsToSignature ((some []).getD []),
        { buckets := (List.replicate w8engine.bucketStarts.length
              (w8engine.bucketMaker ())).set
            (bucketIndexFor w8engine.bucketStarts 7)
            (exactBucketOps.add (w8engine.bucketMaker ()) 7)
          labels := (some []).getD [] })]) :=
  ⟨by simp [w8engine], by simp, by with_unfolding_all rfl,
    c8_reset_all exactBucketOps w8engine
      ("", { buckets := [[3], [], []], labels := [] }) (by simp [w8engine]) [3] (by simp)
      (some []) 7 w8after (by with_unfolding_all rfl)⟩

/-- C10: `NewHistogram` performs no validation of its specification (it copies
the fields verbatim, empty `Starts` included), and on an engine built from an
empty `Starts` array every `Add` call panics while routing (index 0 into a
zero-length bucket array), modelled by `Add` returning `none`. -/
theorem c10_empty_starts (ops : BucketOps σ) (specification : HistogramSpecification σ)
    (hs : specification.Starts = []) (labels : Option (List (String × String))) (v : ℚ)
    (h : histogram σ) (hstarts : h.bucketStarts = [])
    (hfreshsig : lookupSignature h.values (LabelsToSignature (labels.getD [])) = none) :
    (NewHistogram specification).bucketStarts = specification.Starts ∧
    (NewHistogram specification).bucketMaker = specification.BucketBuilder ∧
    (NewHistogram specification).reportablePercentiles =
      specification.ReportablePercentiles ∧
    (NewHistogram specification).values = [] ∧
    Add ops (NewHistogram specification) labels v = none ∧
    Add ops h labels v = none := by
  refine ⟨rfl, rfl, rfl, rfl, ?_, ?_⟩
  · simp [Add, NewHistogram, lookupSignature, hs]
  · simp [Add, hfreshsig, hstarts]

/-- Witness for C10 at a concrete bucket implementation and specification. -/
theorem c10_empty_starts_witness :
    w10specification.Starts = [] ∧
    (NewHistogram w10specification).bucketStarts = [] ∧
    lookupSignature (NewHistogram w10specification).values
      (LabelsToSignature ((none : Option (List (String × String))).getD [])) = none ∧
    Add exactBucketOps (NewHistogram w10specification) none 5 = none := by
  have := c10_empty_starts exactBucketOps w10specification rfl none 5
    (NewHistogram w10specification) rfl rfl
  exact ⟨rfl, rfl, rfl, this.2.2.2.2.1⟩

/-- The routing loop of `Add` returns its running `lastIndex` when no scanned
boundary is ≤ the value, and otherwise the position of the last boundary of
the longest prefix of boundaries that are ≤ the value. -/
theorem bucketIndexLoop_eq (v : ℚ) (l : List ℚ) : ∀ (i lastIndex : ℕ),
    bucketIndexLoop v l i lastIndex =
      if (l.takeWhile (fun s => !decide (v < s))).length = 0 then lastIndex
      else i + (l.takeWhile (fun s => !decide (v < s))).length - 1 := by
  induction l with
  | nil => intro i last; simp [bucketIndexLoop]
  | cons hd rest ih =>
    intro i last
    by_cases hv : v < hd
    · simp [bucketIndexLoop, hv, List.takeWhile_cons]
    · rw [show bucketIndexLoop v (hd :: rest) i last =
          bucketIndexLoop v rest (i + 1) i from by simp [bucketIndexLoop, hv]]
      rw [ih (i + 1) i]
      have htw : ((hd :: rest).takeWhile (fun s => !decide (v < s))).length =
          (rest.takeWhile (fun s => !decide (v < s))).length + 1 := by
        simp [List.takeWhile_cons, hv]
      rw [htw]
      rcases Nat.eq_zero_or_pos (rest.takeWhile (fun s => !decide (v < s))).length with h0 | h0
      · simp [h0]
      · have h1 : ¬(rest.takeWhile (fun s => !decide (v < s))).length = 0 := by omega
        simp only [h1, if_false, Nat.succ_ne_zero, if_neg (Nat.succ_ne_zero _)]
        omega

/-- Length of the longest `takeWhile` prefix, characterized by the predicate
holding on the first `n` elements and failing on element `n`. -/
theorem length_takeWhile_eq {α : Type} (p : α → Bool) (l : List α) :
    ∀ (n : ℕ) (hn : n ≤ l.length),
      (∀ j (hj : j < n), p (l.get ⟨j, lt_of_lt_of_le hj hn⟩) = true) →
      (∀ hlt : n < l.length, p (l.get ⟨n, hlt⟩) = false) →
      (l.takeWhile p).length = n := by
  induction l with
  | nil => intro n hn _ _; simp at hn; simp [hn]
  | cons hd rest ih =>
    intro n hn hall hstop
    cases n with
    | zero =>
      have hp : p hd = false := hstop (by simp)
      simp [List.takeWhile_cons, hp]
    | succ m =>
      have hp : p hd = true := hall 0 (Nat.succ_pos m)
      have hm : m ≤ rest.length := by simpa using hn
      have hall' : ∀ j (hj : j < m), p (rest.get ⟨j, lt_of_lt_of_le hj hm⟩) = true := by
        intro j hj
        have := hall (j + 1) (by omega)
        simpa using this
      have hstop' : ∀ hlt : m < rest.length, p (rest.get ⟨m, hlt⟩) = false := by
        intro hlt
        have := hstop (by simpa using Nat.succ_lt_succ hlt)
        simpa using this
      simp only [List.takeWhile_cons, hp, if_true, List.length_cons]
      rw [ih m hm hall' hstop']

/-- Monotonicity of a strictly ascending boundary list. -/
theorem sorted_get_le (starts : List ℚ) (hsorted : starts.Pairwise (· < ·))
    (a b : ℕ) (ha : a < starts.length) (hb : b < starts.length) (hab : a ≤ b) :
    starts.get ⟨a, ha⟩ ≤ starts.get ⟨b, hb⟩ := by
  rcases Nat.lt_or_ge a b with h | h
  · exact le_of_lt ((List.pairwise_iff_get.1 hsorted) ⟨a, ha⟩ ⟨b, hb⟩ (by simpa [Fin.lt_def]))
  · have : a = b := le_antisymm hab h
    subst this
    exact le_refl _

/-- C2: with a sorted ascending boundary array, `Add` routes a value equal to
`boundaries[i]` to bucket i, a value strictly between `boundaries[i]` and
`boundaries[i+1]` to bucket i, a value below `boundaries[0]` to bucket 0, and
a value at or above the last boundary to the last bucket. -/
theorem c2_boundary_routing (starts : List ℚ) (hsorted : starts.Pairwise (· < ·)) (v : ℚ) :
    (∀ i : Fin starts.length, v = starts.get i → bucketIndexFor starts v = i.1) ∧
    (∀ i : Fin starts.length, ∀ h1 : i.1 + 1 < starts.length,
      starts.get i < v → v < starts.get ⟨i.1 + 1, h1⟩ → bucketIndexFor starts v = i.1) ∧
    (∀ h0 : 0 < starts.length, v < starts.get ⟨0, h0⟩ → bucketIndexFor starts v = 0) ∧
    (∀ hne : starts ≠ [], starts.getLast hne ≤ v → bucketIndexFor starts v = starts.length - 1) := by
  have key0 : (starts.takeWhile (fun s => !decide (v < s))).length = 0 →
      bucketIndexFor starts v = 0 := by
    intro hn
    unfold bucketIndexFor
    rw [bucketIndexLoop_eq v starts 0 0, hn]
    simp
  have keyS : ∀ n : ℕ, (starts.takeWhile (fun s => !decide (v < s))).length = n + 1 →
      bucketIndexFor starts v = n := by
    intro n hn
    unfold bucketIndexFor
    rw [bucketIndexLoop_eq v starts 0 0, hn]
    simp
  refine ⟨?_, ?_, ?_, ?_⟩
  · intro i hvi
    apply keyS i.1
    apply length_takeWhile_eq _ _ (i.1 + 1) (by omega)
    · intro j hj
      have hle : starts.get ⟨j, by omega⟩ ≤ starts.get ⟨i.1, i.2⟩ :=
        sorted_get_le starts hsorted j i.1 (by omega) i.2 (by omega)
      have hjv : starts.get ⟨j, by omega⟩ ≤ v := by rw [hvi]; exact hle
      simp only [not_lt, Bool.not_eq_true', decide_eq_false_iff_not]
      simpa using hjv
    · intro hlt
      have hgt : starts.get ⟨i.1, i.2⟩ < starts.get ⟨i.1 + 1, hlt⟩ :=
        (List.pairwise_iff_get.1 hsorted) ⟨i.1, i.2⟩ ⟨i.1 + 1, hlt⟩ (by simp [Fin.lt_def])
      have hvlt : v < starts.get ⟨i.1 + 1, hlt⟩ := by rw [hvi]; exact hgt
      simp only [Bool.not_eq_false', decide_eq_true_eq]
      simpa using hvlt
  · intro i h1 hlo hhi
    apply keyS i.1
    apply length_takeWhile_eq _ _ (i.1 + 1) (by omega)
    · intro j hj
      have hle : starts.get ⟨j, by omega⟩ ≤ starts.get ⟨i.1, i.2⟩ :=
        sorted_get_le starts hsorted j i.1 (by omega) i.2 (by omega)
      have hjv : starts.get ⟨j, by omega⟩ ≤ v := le_of_lt (lt_of_le_of_lt hle hlo)
      simp only [not_lt, Bool.not_eq_true', decide_eq_false_iff_not]
      simpa using hjv
    · intro hlt
      simp only [Bool.not_eq_false', decide_eq_true_eq]
      simpa using hhi
  · intro h0 hv0
    apply key0
    apply length_takeWhile_eq _ _ 0 (by omega)
    · intro j hj; omega
    · intro hlt
      simp only [Bool.not_eq_false', decide_eq_true_eq]
      simpa using hv0
  · intro hne hlast
    have hlen : 0 < starts.length := List.length_pos.2 hne
    apply keyS (starts.length - 1)
    have hw : (starts.takeWhile (fun s => !decide (v < s))).length = starts.length := by
      apply length_takeWhile_eq _ _ starts.length (le_refl _)
      · intro j hj
        have hle : starts.get ⟨j, hj⟩ ≤ starts.get ⟨starts.length - 1, by omega⟩ :=
          sorted_get_le starts hsorted j (starts.length - 1) hj (by omega) (by omega)
        rw [List.getLast_eq_get] at hlast
        have hjv : starts.get ⟨j, hj⟩ ≤ v := le_trans hle hlast
        simp only [not_lt, Bool.not_eq_true', decide_eq_false_iff_not]
        simpa using hjv
      · intro hlt; omega
    rw [hw]
    omega

/-- Witness for C2 on boundaries `[0, 10, 20]` at values 10 (boundary hit),
15 (strict interior), -5 (below range) and 100 (above the last boundary). -/
theorem c2_boundary_routing_witness :
    ([0, 10, 20] : List ℚ).Pairwise (· < ·) ∧
    bucketIndexFor [0, 10, 20] 10 = 1 ∧
    bucketIndexFor [0, 10, 20] 15 = 1 ∧
    bucketIndexFor [0, 10, 20] (-5) = 0 ∧
    bucketIndexFor [0, 10, 20] 100 = 2 := by
  have hs : ([0, 10, 20] : List ℚ).Pairwise (· < ·) := by norm_num
  refine ⟨hs, ?_, ?_, ?_, ?_⟩
  · exact (c2_boundary_routing [0, 10, 20] hs 10).1 ⟨1, by norm_num⟩ (by norm_num)
  · exact (c2_boundary_routing [0, 10, 20] hs 15).2.1 ⟨1, by norm_num⟩ (by norm_num)
      (by norm_num) (by norm_num)
  · exact (c2_boundary_routing [0, 10, 20] hs (-5)).2.2.1 (by norm_num) (by norm_num)
  · exact (c2_boundary_routing [0, 10, 20] hs 100).2.2.2 (by simp) (by norm_num [List.getLast])

/-- The cumulative-count list has one entry per bucket. -/
theorem cumulativeSums_length (obs : List ℕ) : ∀ acc : ℕ,
    (cumulativeSums obs acc).length = obs.length := by
  induction obs with
  | nil => intro acc; rfl
  | cons o rest ih => intro acc; simp [cumulativeSums, ih]

/-- Entry `j` of the cumulative-count list is the accumulator plus the sum of
the first `j+1` counts. -/
theorem cumulativeSums_getD (obs : List ℕ) : ∀ (acc j : ℕ), j < obs.length →
    (cumulativeSums obs acc).getD j 0 = acc + (obs.take (j + 1)).sum := by
  induction obs with
  | nil => intro acc j hj; simp at hj
  | cons o rest ih =>
    intro acc j hj
    cases j with
    | zero => simp [cumulativeSums]
    | succ m =>
      have hm : m < rest.length := by simpa using hj
      simp only [cumulativeSums, List.getD_cons_succ]
      rw [ih (acc + o) m hm]
      simp [List.take_succ_cons]
      omega

/-- Sum of a one-longer prefix: add the next element. -/
theorem take_succ_sum (l : List ℕ) (j : ℕ) (hj : j < l.length) :
    (l.take (j + 1)).sum = (l.take j).sum + l.getD j 0 := by
  rw [List.take_succ]
  have : l[j]? = some (l.getD j 0) := by
    rw [List.getD_eq_getElem _ _ hj]
    exact List.getElem?_eq_getElem hj
  rw [this]
  simp

/-- Prefix sums are monotone in the prefix length. -/
theorem take_sum_mono (l : List ℕ) : ∀ (a b : ℕ), a ≤ b →
    (l.take a).sum ≤ (l.take b).sum := by
  induction l with
  | nil => intro a b hab; simp
  | cons x xs ih =>
    intro a b hab
    cases a with
    | zero => simp
    | succ a' =>
      cases b with
      | zero => omega
      | succ b' =>
        simp only [List.take_succ_cons, List.sum_cons]
        exact Nat.add_le_add_left (ih a' b' (by omega)) x

/-- A prefix sum does not change across a stretch of zero counts. -/
theorem take_sum_stable (l : List ℕ) (a : ℕ) : ∀ (b : ℕ), a ≤ b →
    (∀ k, a ≤ k → k < b → l.getD k 0 = 0) → (l.take b).sum = (l.take a).sum := by
  intro b
  induction b with
  | zero => intro hab _; have : a = 0 := by omega
            rw [this]
  | succ m ih =>
    intro hab hz
    rcases Nat.lt_or_ge m l.length with hm | hm
    · rcases Nat.eq_or_lt_of_le hab with he | hlt
      · rw [he]
      · have ha : a ≤ m := by omega
        rw [take_succ_sum l m hm, hz m ha (by omega), ih ha (fun k hk1 hk2 => hz k hk1 (by omega))]
        omega
    · rcases Nat.eq_or_lt_of_le hab with he | hlt
      · rw [he]
      · have ha : a ≤ m := by omega
        have h1 : (l.take (m + 1)).sum = l.sum := by
          rw [List.take_of_length_le (by omega)]
        have h2 : (l.take m).sum = l.sum := by
          rw [List.take_of_length_le hm]
        rw [h1, ← h2]
        exact ih ha (fun k hk1 hk2 => hz k hk1 (by omega))

/-- Specification of the `nextNonEmptyBucketElement` scan: when the remaining
counts are not all zero it finds the first non-empty bucket at or after
`start`, all buckets strictly between `start` and it being empty. -/
theorem nextNonEmptyFrom_spec (obs : List ℕ) :
    ∀ (fuel start : ℕ), obs.length ≤ start + fuel → (obs.drop start).sum ≠ 0 →
      ∃ j, nextNonEmptyFrom obs start fuel = some j ∧ start ≤ j ∧ j < obs.length ∧
        obs.getD j 0 ≠ 0 ∧ ∀ k, start ≤ k → k < j → obs.getD k 0 = 0 := by
  intro fuel
  induction fuel with
  | zero =>
    intro start hlen hsum
    exact absurd (by rw [List.drop_of_length_le (by omega)]; rfl) hsum
  | succ f ih =>
    intro start hlen hsum
    have hstart : start < obs.length := by
      by_contra hc
      exact hsum (by rw [List.drop_of_length_le (by omega)]; rfl)
    by_cases h0 : obs.getD start 0 = 0
    · have hdrop : obs.drop start = obs.getD start 0 :: obs.drop (start + 1) := by
        rw [List.getD_eq_getElem _ _ hstart]
        exact List.drop_eq_getElem_cons hstart
      have hsum' : (obs.drop (start + 1)).sum ≠ 0 := by
        intro hz
        apply hsum
        rw [hdrop, List.sum_cons, h0, hz]
      obtain ⟨j, hj1, hj2, hj3, hj4, hj5⟩ := ih (start + 1) (by omega) hsum'
      refine ⟨j, ?_, by omega, hj3, hj4, ?_⟩
      · rw [show nextNonEmptyFrom obs start (f + 1) = nextNonEmptyFrom obs (start + 1) f from by
          rw [nextNonEmptyFrom, if_pos h0]]
        exact hj1
      · intro k hk1 hk2
        rcases Nat.eq_or_lt_of_le hk1 with he | hlt
        · rw [← he]; exact h0
        · exact hj5 k (by omega) hk2
    · refine ⟨start, ?_, le_refl _, hstart, h0, by omega⟩
      rw [nextNonEmptyFrom, if_neg h0]

/-- The `previousCumulativeObservations` accessor returns the prefix sum of
the counts strictly before the bucket index. -/
theorem previousCumulativeObservations_eq (obs : List ℕ) (i : ℕ) (hi : i ≤ obs.length) :
    previousCumulativeObservations (cumulativeSums obs 0) i = (obs.take i).sum := by
  unfold previousCumulativeObservations
  cases i with
  | zero => simp
  | succ m =>
    have hm : m < obs.length := by omega
    simp only [Nat.succ_ne_zero, if_false, Nat.add_sub_cancel]
    rw [cumulativeSums_getD obs 0 m hm]
    simp

/-- Core specification of the bucket-search loop.  When the prospective index
is a valid rank (`0 ≤ idx < total`), the loop entered at position `i` — with
every earlier cumulative count zero or strictly below the index — selects a
bucket `b ≥ i` with a sub-index in `[0, count b)` addressing exactly the
`idx`-th element of the virtual concatenation of all bucket contents. -/
theorem searchLoop_spec (obs : List ℕ) (idx : ℤ) :
    ∀ (fuel i : ℕ), obs.length - i = fuel → i ≤ obs.length →
      (∀ j, j < i → ((obs.take (j + 1)).sum = 0 ∨ ((obs.take (j + 1)).sum : ℤ) < idx)) →
      0 ≤ idx → idx < (obs.sum : ℤ) →
      ∃ b s, searchLoop obs (cumulativeSums obs 0) idx ((cumulativeSums obs 0).drop i) i =
          .selected b s ∧
        i ≤ b ∧ b < obs.length ∧ 0 ≤ s ∧ s < (obs.getD b 0 : ℤ) ∧
        ((obs.take b).sum : ℤ) + s = idx := by
  intro fuel
  induction fuel with
  | zero =>
    intro i hfi hi hA h0 hT
    exfalso
    have hpos : 0 < obs.length := by
      rcases Nat.eq_zero_or_pos obs.length with hz | hp
      · have : obs = [] := List.length_eq_zero.1 hz
        subst this
        simp at hT
        omega
      · exact hp
    have hAl := hA (obs.length - 1) (by omega)
    rw [show obs.length - 1 + 1 = obs.length from by omega, List.take_length] at hAl
    rcases hAl with hz | hlt <;> omega
  | succ f ih =>
    intro i hfi hi hA h0 hT
    have hilen : i < obs.length := by omega
    have hclen : i < (cumulativeSums obs 0).length := by
      rw [cumulativeSums_length]; exact hilen
    have hdrop : (cumulativeSums obs 0).drop i =
        (cumulativeSums obs 0).getD i 0 :: (cumulativeSums obs 0).drop (i + 1) := by
      rw [List.getD_eq_getElem _ _ hclen]
      exact List.drop_eq_getElem_cons hclen
    have hcgd : (cumulativeSums obs 0).getD i 0 = (obs.take (i + 1)).sum := by
      rw [cumulativeSums_getD obs 0 i hilen]; simp
    by_cases hc0 : (obs.take (i + 1)).sum = 0
    · have hstep : searchLoop obs (cumulativeSums obs 0) idx ((cumulativeSums obs 0).drop i) i =
          searchLoop obs (cumulativeSums obs 0) idx ((cumulativeSums obs 0).drop (i + 1))
            (i + 1) := by
        rw [hdrop, hcgd]
        simp only [searchLoop]
        rw [if_pos hc0]
      rw [hstep]
      have hA' : ∀ j, j < i + 1 →
          ((obs.take (j + 1)).sum = 0 ∨ ((obs.take (j + 1)).sum : ℤ) < idx) := by
        intro j hj
        rcases Nat.lt_or_ge j i with hji | hji
        · exact hA j hji
        · have hje : j = i := by omega
          subst hje
          exact Or.inl hc0
      obtain ⟨b, s, hsel, hib, hblen, hs0, hslt, hsum⟩ :=
        ih (i + 1) (by omega) (by omega) hA' h0 hT
      exact ⟨b, s, hsel, by omega, hblen, hs0, hslt, hsum⟩
    · by_cases hcge : idx ≤ ((obs.take (i + 1)).sum : ℤ)
      · have hprev : previousCumulativeObservations (cumulativeSums obs 0) i =
            (obs.take i).sum :=
          previousCumulativeObservations_eq obs i (by omega)
        have hobsi : (obs.take (i + 1)).sum = (obs.take i).sum + obs.getD i 0 :=
          take_succ_sum obs i hilen
        have hprevle : ((obs.take i).sum : ℤ) ≤ idx := by
          cases i with
          | zero => simpa using h0
          | succ k =>
            rcases hA k (by omega) with hz | hlt <;> omega
        by_cases heq : (obs.getD i 0 : ℤ) =
            idx - (previousCumulativeObservations (cumulativeSums obs 0) i : ℤ)
        · rw [hprev] at heq
          have hidx : idx = ((obs.take (i + 1)).sum : ℤ) := by omega
          have hdropsum : (obs.drop (i + 1)).sum ≠ 0 := by
            have hsplit := List.sum_take_add_sum_drop obs (i + 1)
            omega
          obtain ⟨j, hj1, hj2, hj3, hj4, hj5⟩ :=
            nextNonEmptyFrom_spec obs (obs.length - (i + 1)) (i + 1) (by omega) hdropsum
          have hstep : searchLoop obs (cumulativeSums obs 0) idx
              ((cumulativeSums obs 0).drop i) i = .selected j 0 := by
            rw [hdrop, hcgd]
            simp only [searchLoop]
            rw [if_neg hc0, if_pos hcge, if_pos (by rw [hprev]; exact heq)]
            simp [nextNonEmptyBucketElement, hj1]
          refine ⟨j, 0, hstep, by omega, hj3, le_refl 0, ?_, ?_⟩
          · have hjpos : 0 < obs.getD j 0 := Nat.pos_of_ne_zero hj4
            exact_mod_cast hjpos
          · have hstable : (obs.take j).sum = (obs.take (i + 1)).sum :=
              take_sum_stable obs (i + 1) j hj2 hj5
            rw [hstable]
            omega
        · have hstep : searchLoop obs (cumulativeSums obs 0) idx
              ((cumulativeSums obs 0).drop i) i =
              .selected i (idx -
                (previousCumulativeObservations (cumulativeSums obs 0) i : ℤ)) := by
            rw [hdrop, hcgd]
            simp only [searchLoop]
            rw [if_neg hc0, if_pos hcge, if_neg heq]
          rw [hprev] at heq
          refine ⟨i, idx - (previousCumulativeObservations (cumulativeSums obs 0) i : ℤ),
            hstep, le_refl i, hilen, ?_, ?_, ?_⟩
          · rw [hprev]; omega
          · rw [hprev]; omega
          · rw [hprev]; omega
      · have hstep : searchLoop obs (cumulativeSums obs 0) idx ((cumulativeSums obs 0).drop i) i =
            searchLoop obs (cumulativeSums obs 0) idx ((cumulativeSums obs 0).drop (i + 1))
              (i + 1) := by
          rw [hdrop, hcgd]
          simp only [searchLoop]
          rw [if_neg hc0, if_neg hcge]
        rw [hstep]
        have hA' : ∀ j, j < i + 1 →
            ((obs.take (j + 1)).sum = 0 ∨ ((obs.take (j + 1)).sum : ℤ) < idx) := by
          intro j hj
          rcases Nat.lt_or_ge j i with hji | hji
          · exact hA j hji
          · have hje : j = i := by omega
            subst hje
            exact Or.inr (by omega)
        obtain ⟨b, s, hsel, hib, hblen, hs0, hslt, hsum⟩ :=
          ih (i + 1) (by omega) (by omega) hA' h0 hT
        exact ⟨b, s, hsel, by omega, hblen, hs0, hslt, hsum⟩

/-- The prospective index for a percentile in `(0, 1]` over a positive total
is a valid rank: `0 ≤ idx ≤ total - 1`. -/
theorem prospectiveIndex_bounds (p : ℚ) (total : ℕ) (hp0 : 0 < p) (hp1 : p ≤ 1)
    (htot : 0 < total) :
    0 ≤ prospectiveIndexForPercentile p (total : ℤ) ∧
    prospectiveIndexForPercentile p (total : ℤ) < (total : ℤ) := by
  have hx0 : (0 : ℚ) ≤ ((total : ℤ) : ℚ) - 1 := by
    have : (1 : ℚ) ≤ ((total : ℤ) : ℚ) := by exact_mod_cast htot
    linarith
  have hq0 : (0 : ℚ) ≤ p * (((total : ℤ) : ℚ) - 1) :=
    mul_nonneg hp0.le hx0
  have hqle : p * (((total : ℤ) : ℚ) - 1) ≤ ((total : ℤ) : ℚ) - 1 := by
    nlinarith
  unfold prospectiveIndexForPercentile ratTrunc
  rw [if_pos hq0]
  constructor
  · exact Rat.le_floor.2 (by exact_mod_cast hq0)
  · have hfl : ((p * (((total : ℤ) : ℚ) - 1)).floor : ℚ) ≤ p * (((total : ℤ) : ℚ) - 1) :=
      Rat.le_floor.1 (le_refl _)
    have : ((p * (((total : ℤ) : ℚ) - 1)).floor : ℚ) ≤ ((total : ℤ) : ℚ) - 1 :=
      le_trans hfl hqle
    have hz : (p * (((total : ℤ) : ℚ) - 1)).floor ≤ (total : ℤ) - 1 := by
      exact_mod_cast this
    omega

/-- Bucket selection specification for `bucketForPercentile` on a series'
counts: for a percentile in `(0, 1]` and a positive total, the search selects
a bucket and a sub-index in range, addressing the prospective rank within the
concatenation of bucket contents. -/
theorem bucketForPercentileObs_spec (obs : List ℕ) (p : ℚ) (hp0 : 0 < p) (hp1 : p ≤ 1)
    (hsum : 0 < obs.sum) :
    ∃ b s, bucketForPercentileObs obs p = .selected b s ∧ b < obs.length ∧ 0 ≤ s ∧
      s < (obs.getD b 0 : ℤ) ∧
      ((obs.take b).sum : ℤ) + s = prospectiveIndexForPercentile p (obs.sum : ℤ) := by
  obtain ⟨h0, hT⟩ := prospectiveIndex_bounds p obs.sum hp0 hp1 hsum
  obtain ⟨b, s, hsel, hib, hblen, hs0, hslt, hsc⟩ :=
    searchLoop_spec obs (prospectiveIndexForPercentile p (obs.sum : ℤ)) obs.length 0
      (by omega) (by omega) (fun j hj => absurd hj (Nat.not_lt_zero j)) h0 hT
  refine ⟨b, s, ?_, hblen, hs0, hslt, hsc⟩
  rw [← hsel]
  unfold bucketForPercentileObs
  rw [List.drop_zero]

/-- C4: for a series with a positive total observation count and a percentile
in `(0, 1.0]`, `bucketForPercentile` never reaches the fatal panic of
`nextNonEmptyBucketElement`, and the bucket and sub-index it returns satisfy
`0 ≤ subIndex < count` of that bucket — the precondition of the subsequent
`ValueForIndex` call. -/
theorem c4_selection_safety (ops : BucketOps σ) (buckets : List σ) (p : ℚ)
    (hp0 : 0 < p) (hp1 : p ≤ 1) (hsum : 0 < (buckets.map ops.observations).sum) :
    bucketForPercentileObs (buckets.map ops.observations) p ≠ .panicked ∧
    ∃ b s, bucketForPercentileObs (buckets.map ops.observations) p = .selected b s ∧
      b < buckets.length ∧ 0 ≤ s ∧
      s < ((buckets.map ops.observations).getD b 0 : ℤ) := by
  obtain ⟨b, s, hsel, hblen, hs0, hslt, _⟩ :=
    bucketForPercentileObs_spec (buckets.map ops.observations) p hp0 hp1 hsum
  refine ⟨by rw [hsel]; simp, b, s, hsel, by simpa using hblen, hs0, hslt⟩

/-- Witness for C4 on the exact-storage scenario series at percentile 0.5. -/
theorem c4_selection_safety_witness :
    (0 : ℚ) < 1 / 2 ∧ (1 / 2 : ℚ) ≤ 1 ∧
    0 < (([[3, 3, 3, 3, 3], [], [25, 25, 25, 25, 25]] :
      List (List ℚ)).map exactBucketOps.observations).sum ∧
    (bucketForPercentileObs (([[3, 3, 3, 3, 3], [], [25, 25, 25, 25, 25]] :
        List (List ℚ)).map exactBucketOps.observations) (1 / 2) ≠ .panicked ∧
      ∃ b s, bucketForPercentileObs (([[3, 3, 3, 3, 3], [], [25, 25, 25, 25, 25]] :
          List (List ℚ)).map exactBucketOps.observations) (1 / 2) = .selected b s ∧
        b < ([[3, 3, 3, 3, 3], [], [25, 25, 25, 25, 25]] : List (List ℚ)).length ∧ 0 ≤ s ∧
        s < ((([[3, 3, 3, 3, 3], [], [25, 25, 25, 25, 25]] :
          List (List ℚ)).map exactBucketOps.observations).getD b 0 : ℤ)) :=
  ⟨by norm_num, by norm_num, by decide,
    c4_selection_safety exactBucketOps [[3, 3, 3, 3, 3], [], [25, 25, 25, 25, 25]] (1 / 2)
      (by norm_num) (by norm_num) (by decide)⟩

/-- The search loop falls through when every remaining cumulative count is
zero. -/
theorem searchLoop_all_zero (obs cumAll : List ℕ) (idx : ℤ) :
    ∀ (l : List ℕ) (i : ℕ), (∀ c ∈ l, c = 0) →
      searchLoop obs cumAll idx l i = .fellThrough := by
  intro l
  induction l with
  | nil => intro i _; rfl
  | cons c rest ih =>
    intro i hz
    have hc : c = 0 := hz c (by simp)
    simp only [searchLoop]
    rw [if_pos hc]
    exact ih (i + 1) (fun c' hc' => hz c' (by simp [hc']))

/-- With all counts zero, every cumulative sum equals the accumulator. -/
theorem cumulativeSums_const (obs : List ℕ) : ∀ acc : ℕ, (∀ o ∈ obs, o = 0) →
    ∀ c ∈ cumulativeSums obs acc, c = acc := by
  induction obs with
  | nil => intro acc _ c hc; exact absurd hc (List.not_mem_nil c)
  | cons o rest ih =>
    intro acc hz c hc
    have ho : o = 0 := hz o (by simp)
    rcases List.mem_cons.1 hc with he | he
    · rw [he, ho]; omega
    · have := ih (acc + o) (fun o' ho' => hz o' (by simp [ho'])) c he
      rw [this, ho]; omega

/-- A zero total forces the whole search to fall through. -/
theorem bucketForPercentileObs_zero (obs : List ℕ) (p : ℚ) (hz : obs.sum = 0) :
    bucketForPercentileObs obs p = .fellThrough := by
  unfold bucketForPercentileObs
  apply searchLoop_all_zero
  apply cumulativeSums_const
  intro o ho
  exact (List.sum_eq_zero_iff.1 hz) o ho

/-- C5: for a percentile in `(0, 1.0]`, the search loop of
`bucketForPercentile` falls through (selecting bucket 0 at index 0) exactly
when the series' total observation count is zero, and a percentile query on
such an empty series returns bucket 0's value at index 0 instead of
failing. -/
theorem c5_empty_series (ops : BucketOps σ) (buckets : List σ) (p : ℚ)
    (hp0 : 0 < p) (hp1 : p ≤ 1) :
    (bucketForPercentileObs (buckets.map ops.observations) p = .fellThrough ↔
      (buckets.map ops.observations).sum = 0) ∧
    ((buckets.map ops.observations).sum = 0 → buckets ≠ [] →
      percentileOfBuckets ops buckets p =
        (buckets[0]?).map (fun bk => ops.valueForIndex bk 0)) := by
  have hmp : (buckets.map ops.observations).sum = 0 →
      bucketForPercentileObs (buckets.map ops.observations) p = .fellThrough :=
    fun hz => bucketForPercentileObs_zero _ p hz
  refine ⟨⟨?_, hmp⟩, ?_⟩
  · intro hft
    by_contra hc
    obtain ⟨b, s, hsel, _⟩ :=
      bucketForPercentileObs_spec (buckets.map ops.observations) p hp0 hp1
        (Nat.pos_of_ne_zero hc)
    rw [hsel] at hft
    exact absurd hft (by simp)
  · intro hz hne
    unfold percentileOfBuckets
    rw [hmp hz]

/-- Witness for C5 on a series of two empty exact-storage buckets. -/
theorem c5_empty_series_witness :
    (0 : ℚ) < 1 / 2 ∧ (1 / 2 : ℚ) ≤ 1 ∧
    ((bucketForPercentileObs (([[], []] : List (List ℚ)).map exactBucketOps.observations)
        (1 / 2) = .fellThrough ↔
      (([[], []] : List (List ℚ)).map exactBucketOps.observations).sum = 0) ∧
    ((([[], []] : List (List ℚ)).map exactBucketOps.observations).sum = 0 →
      ([[], []] : List (List ℚ)) ≠ [] →
      percentileOfBuckets exactBucketOps [[], []] (1 / 2) =
        (([[], []] : List (List ℚ))[0]?).map (fun bk => exactBucketOps.valueForIndex bk 0))) :=
  ⟨by norm_num, by norm_num,
    c5_empty_series exactBucketOps [[], []] (1 / 2) (by norm_num) (by norm_num)⟩

/-- C6 counterexample: on the series built by routing ten observations
through `Add` into the skewed (but contract-satisfying) buckets, every
bucket's `valueAt` is ascending by index, yet percentile 0.5 evaluates to 100
while the larger percentile 0.6 evaluates to 25 — so within-bucket
ascendingness alone does not make `percentile` monotone. -/
theorem c6_counterexample :
    (skewEngine.bind fun h => lookupSignature h.values (LabelsToSignature [])) =
      some skewSeries ∧
    (∀ bk ∈ skewSeries.buckets, ∀ i j : ℤ, 0 ≤ i → i ≤ j →
      j < (skewBucketOps.observations bk : ℤ) →
      skewBucketOps.valueForIndex bk i ≤ skewBucketOps.valueForIndex bk j) ∧
    (0 : ℚ) < 1 / 2 ∧ (1 / 2 : ℚ) ≤ 3 / 5 ∧ (3 / 5 : ℚ) ≤ 1 ∧
    (skewEngine.bind fun h =>
      percentile skewBucketOps h (LabelsToSignature []) (1 / 2)) = some 100 ∧
    (skewEngine.bind fun h =>
      percentile skewBucketOps h (LabelsToSignature []) (3 / 5)) = some 25 ∧
    ¬ ((100 : ℚ) ≤ 25) := by
  refine ⟨by with_unfolding_all rfl, ?_, by norm_num, by norm_num, by norm_num,
    by with_unfolding_all rfl, by with_unfolding_all rfl, by norm_num⟩
  intro bk hbk
  fin_cases hbk
  · intro i j h0 hij hj
    simp only [skewBucketOps, exactBucketOps, List.length_cons, List.length_nil] at hj ⊢
    have hi5 : i < 5 := by omega
    interval_cases i <;> interval_cases j <;> decide
  · intro i j h0 hij hj
    simp only [skewBucketOps, exactBucketOps, List.length_nil] at hj
    omega
  · intro i j h0 hij hj
    simp only [skewBucketOps, exactBucketOps, List.length_cons, List.length_nil] at hj ⊢
    have hi5 : i < 5 := by omega
    interval_cases i <;> interval_cases j <;> decide

/-- The prospective index is monotone in the requested percentile. -/
theorem prospectiveIndex_mono (p1 p2 : ℚ) (total : ℕ) (hp0 : 0 < p1) (hple : p1 ≤ p2)
    (htot : 0 < total) :
    prospectiveIndexForPercentile p1 (total : ℤ) ≤
      prospectiveIndexForPercentile p2 (total : ℤ) := by
  have hx0 : (0 : ℚ) ≤ ((total : ℤ) : ℚ) - 1 := by
    have : (1 : ℚ) ≤ ((total : ℤ) : ℚ) := by exact_mod_cast htot
    linarith
  have hq1 : (0 : ℚ) ≤ p1 * (((total : ℤ) : ℚ) - 1) := mul_nonneg hp0.le hx0
  have hq2 : (0 : ℚ) ≤ p2 * (((total : ℤ) : ℚ) - 1) :=
    mul_nonneg (le_trans hp0.le hple) hx0
  have hle : p1 * (((total : ℤ) : ℚ) - 1) ≤ p2 * (((total : ℤ) : ℚ) - 1) :=
    mul_le_mul_of_nonneg_right hple hx0
  unfold prospectiveIndexForPercentile ratTrunc
  rw [if_pos hq1, if_pos hq2]
  exact Rat.le_floor.2 (le_trans (Rat.le_floor.1 (le_refl _)) hle)

/-- Entry `b` of the mapped count list is the count of bucket `b`. -/
theorem map_getD_obs (f : σ → ℕ) (l : List σ) (b : ℕ) (hb : b < l.length) :
    (l.map f).getD b 0 = f (l.get ⟨b, hb⟩) := by
  rw [List.getD_eq_getElem _ _ (by simpa using hb), List.getElem_map]
  simp [List.get_eq_getElem]

/-- Resolving a selected bucket through `ValueForIndex`. -/
theorem percentileOfBuckets_eq_of_selected (ops : BucketOps σ) (buckets : List σ) (p : ℚ)
    (b : ℕ) (s : ℤ) (hb : b < buckets.length)
    (hsel : bucketForPercentileObs (buckets.map ops.observations) p = .selected b s) :
    percentileOfBuckets ops buckets p =
      some (ops.valueForIndex (buckets.get ⟨b, hb⟩) s) := by
  unfold percentileOfBuckets
  rw [hsel]
  show (buckets[b]?).map (fun bk => ops.valueForIndex bk s) =
    some (ops.valueForIndex (buckets.get ⟨b, hb⟩) s)
  rw [List.getElem?_eq_getElem hb]
  simp [List.get_eq_getElem]

/-- C6 amended: for a fixed series and percentiles `p1 ≤ p2` in `(0, 1.0]`,
`percentile(p1) ≤ percentile(p2)` holds under the hypotheses that each
bucket's `valueAt` is ascending by index AND that the buckets are mutually
ordered — every in-range value of an earlier bucket is at most every in-range
value of a later bucket (as holds for exact-storage buckets fed through
`Add`'s boundary routing with sorted boundaries). -/
theorem c6_amended (ops : BucketOps σ) (buckets : List σ)
    (hasc : ∀ bk ∈ buckets, ∀ i j : ℤ, 0 ≤ i → i ≤ j →
      j < (ops.observations bk : ℤ) →
      ops.valueForIndex bk i ≤ ops.valueForIndex bk j)
    (hcross : ∀ a b : Fin buckets.length, a < b →
      ∀ i j : ℤ, 0 ≤ i → i < (ops.observations (buckets.get a) : ℤ) →
        0 ≤ j → j < (ops.observations (buckets.get b) : ℤ) →
        ops.valueForIndex (buckets.get a) i ≤ ops.valueForIndex (buckets.get b) j)
    (hne : buckets ≠ []) (p1 p2 : ℚ) (hp0 : 0 < p1) (hple : p1 ≤ p2) (hp2 : p2 ≤ 1) :
    ∃ v1 v2, percentileOfBuckets ops buckets p1 = some v1 ∧
      percentileOfBuckets ops buckets p2 = some v2 ∧ v1 ≤ v2 := by
  rcases Nat.eq_zero_or_pos (buckets.map ops.observations).sum with hz | hpos
  · have hft1 := bucketForPercentileObs_zero (buckets.map ops.observations) p1 hz
    have hft2 := bucketForPercentileObs_zero (buckets.map ops.observations) p2 hz
    have hlen : 0 < buckets.length := List.length_pos.2 hne
    have h0 : buckets[0]? = some (buckets.get ⟨0, hlen⟩) := by
      rw [List.getElem?_eq_getElem hlen]
      simp [List.get_eq_getElem]
    refine ⟨ops.valueForIndex (buckets.get ⟨0, hlen⟩) 0,
      ops.valueForIndex (buckets.get ⟨0, hlen⟩) 0, ?_, ?_, le_refl _⟩
    · unfold percentileOfBuckets
      rw [hft1, h0]
      rfl
    · unfold percentileOfBuckets
      rw [hft2, h0]
      rfl
  · have hp11 : p1 ≤ 1 := le_trans hple hp2
    have hp20 : 0 < p2 := lt_of_lt_of_le hp0 hple
    obtain ⟨b1, s1, hsel1, hb1, hs10, hs1lt, hsc1⟩ :=
      bucketForPercentileObs_spec (buckets.map ops.observations) p1 hp0 hp11 hpos
    obtain ⟨b2, s2, hsel2, hb2, hs20, hs2lt, hsc2⟩ :=
      bucketForPercentileObs_spec (buckets.map ops.observations) p2 hp20 hp2 hpos
    have hb1' : b1 < buckets.length := by simpa using hb1
    have hb2' : b2 < buckets.length := by simpa using hb2
    have hidx := prospectiveIndex_mono p1 p2 (buckets.map ops.observations).sum hp0 hple hpos
    refine ⟨_, _, percentileOfBuckets_eq_of_selected ops buckets p1 b1 s1 hb1' hsel1,
      percentileOfBuckets_eq_of_selected ops buckets p2 b2 s2 hb2' hsel2, ?_⟩
    have hgd1 : ((buckets.map ops.observations).getD b1 0) =
        ops.observations (buckets.get ⟨b1, hb1'⟩) := map_getD_obs ops.observations buckets b1 hb1'
    have hgd2 : ((buckets.map ops.observations).getD b2 0) =
        ops.observations (buckets.get ⟨b2, hb2'⟩) := map_getD_obs ops.observations buckets b2 hb2'
    rcases Nat.lt_trichotomy b1 b2 with hlt | heq | hgt
    · exact hcross ⟨b1, hb1'⟩ ⟨b2, hb2'⟩ (by simpa [Fin.lt_def] using hlt) s1 s2
        hs10 (by rw [← hgd1]; exact hs1lt) hs20 (by rw [← hgd2]; exact hs2lt)
    · subst heq
      have hss : s1 ≤ s2 := by omega
      exact hasc (buckets.get ⟨b1, hb1'⟩) (List.get_mem buckets b1 hb1') s1 s2 hs10 hss
        (by rw [← hgd1]; exact hs2lt)
    · exfalso
      have hmono : ((buckets.map ops.observations).take (b2 + 1)).sum ≤
          ((buckets.map ops.observations).take b1).sum :=
        take_sum_mono (buckets.map ops.observations) (b2 + 1) b1 (by omega)
      have hsucc : ((buckets.map ops.observations).take (b2 + 1)).sum =
          ((buckets.map ops.observations).take b2).sum +
            (buckets.map ops.observations).getD b2 0 :=
        take_succ_sum (buckets.map ops.observations) b2 hb2
      omega

/-- Witness for the amended C6 claim on a single-bucket series with one
observation (value 7) at percentiles 0.5 and 1. -/
theorem c6_amended_witness :
    (∀ bk ∈ ([[7]] : List (List ℚ)), ∀ i j : ℤ, 0 ≤ i → i ≤ j →
      j < (exactBucketOps.observations bk : ℤ) →
      exactBucketOps.valueForIndex bk i ≤ exactBucketOps.valueForIndex bk j) ∧
    (0 : ℚ) < 1 / 2 ∧ (1 / 2 : ℚ) ≤ 1 ∧ (1 : ℚ) ≤ 1 ∧
    (∃ v1 v2, percentileOfBuckets exactBucketOps [[7]] (1 / 2) = some v1 ∧
      percentileOfBuckets exactBucketOps [[7]] 1 = some v2 ∧ v1 ≤ v2) := by
  have hasc : ∀ bk ∈ ([[7]] : List (List ℚ)), ∀ i j : ℤ, 0 ≤ i → i ≤ j →
      j < (exactBucketOps.observations bk : ℤ) →
      exactBucketOps.valueForIndex bk i ≤ exactBucketOps.valueForIndex bk j := by
    intro bk hbk
    fin_cases hbk
    intro i j h0 hij hj
    simp only [exactBucketOps, List.length_cons, List.length_nil] at hj
    have hi : i = 0 := by omega
    have hjz : j = 0 := by omega
    subst hi hjz
    exact le_refl _
  refine ⟨hasc, by norm_num, by norm_num, le_refl 1, ?_⟩
  apply c6_amended exactBucketOps [[7]] hasc ?_ (by simp) (1 / 2) 1 (by norm_num)
    (by norm_num) (le_refl 1)
  intro a b hab i j _ _ _ _
  have ha1 := a.isLt
  have hb1 := b.isLt
  have := Fin.lt_def.1 hab
  simp only [List.length_cons, List.length_nil] at ha1 hb1
  omega

/-- Looking up the signature just stored finds the stored series. -/
theorem lookup_store_self (l : List (String × histogramValue σ)) (sig : String)
    (v : histogramValue σ) :
    lookupSignature (storeSignature l sig v) sig = some v := by
  induction l with
  | nil => simp [storeSignature, lookupSignature]
  | cons e rest ih =>
    by_cases hs : e.1 = sig
    · simp [storeSignature, hs, lookupSignature]
    · rcases e with ⟨s, v0⟩
      simp only [storeSignature, lookupSignature, hs, if_false, if_neg hs]
      exact ih

/-- Updating one list entry changes a mapped sum by swapping the entry's
contribution. -/
theorem map_sum_set (f : σ → ℕ) (l : List σ) : ∀ (k : ℕ) (hk : k < l.length) (x : σ),
    ((l.set k x).map f).sum + f (l.get ⟨k, hk⟩) = (l.map f).sum + f x := by
  induction l with
  | nil => intro k hk; simp at hk
  | cons y ys ih =>
    intro k hk x
    cases k with
    | zero => simp [List.set]; omega
    | succ m =>
      have hm : m < ys.length := by simpa using hk
      simp only [List.set, List.map_cons, List.sum_cons, List.get_cons_succ]
      have := ih m hm x
      omega

/-- One `Add` call increments the signature's total bucket count by exactly
one, given a Bucket whose count starts at 0 when fresh and increments once
per ingested value; the engine configuration is untouched. -/
theorem Add_step_count (ops : BucketOps σ) (h : histogram σ)
    (labels : Option (List (String × String))) (v : ℚ) (h' : histogram σ)
    (hfresh : ops.observations (h.bucketMaker ()) = 0)
    (hinc : ∀ s w, ops.observations (ops.add s w) = ops.observations s + 1)
    (hAdd : Add ops h labels v = some h') :
    observationTotalFor ops h' (LabelsToSignature (labels.getD [])) =
      observationTotalFor ops h (LabelsToSignature (labels.getD [])) + 1 ∧
    h'.bucketMaker = h.bucketMaker := by
  cases hlk : lookupSignature h.values (LabelsToSignature (labels.getD [])) with
  | some original =>
    simp only [Add, hlk] at hAdd
    split at hAdd
    · exact absurd hAdd (by simp)
    · rename_i bucket hbucket
      obtain ⟨hlt, hbe⟩ := List.getElem?_eq_some.1 hbucket
      have hE := Option.some.inj hAdd
      subst hE
      refine ⟨?_, rfl⟩
      simp only [observationTotalFor, lookup_store_self, hlk]
      have hms := map_sum_set ops.observations original.buckets
        (bucketIndexFor h.bucketStarts v) hlt (ops.add bucket v)
      rw [show original.buckets.get ⟨bucketIndexFor h.bucketStarts v, hlt⟩ = bucket from by
        rw [List.get_eq_getElem]; exact hbe] at hms
      have hinc' := hinc bucket v
      omega
  | none =>
    simp only [Add, hlk] at hAdd
    split at hAdd
    · exact absurd hAdd (by simp)
    · rename_i bucket hbucket
      obtain ⟨hlt, hbe⟩ := List.getElem?_eq_some.1 hbucket
      have hmk : bucket = h.bucketMaker () := by
        rw [List.getElem_replicate] at hbe
        exact hbe.symm
      subst hmk
      have hE := Option.some.inj hAdd
      subst hE
      refine ⟨?_, rfl⟩
      simp only [observationTotalFor, lookup_store_self, hlk]
      have hms := map_sum_set ops.observations
        (List.replicate h.bucketStarts.length (h.bucketMaker ()))
        (bucketIndexFor h.bucketStarts v) hlt (ops.add (h.bucketMaker ()) v)
      have hget : (List.replicate h.bucketStarts.length (h.bucketMaker ())).get
          ⟨bucketIndexFor h.bucketStarts v, hlt⟩ = h.bucketMaker () := by
        simp [List.get_eq_getElem]
      rw [hget] at hms
      have hrep : ((List.replicate h.bucketStarts.length (h.bucketMaker ())).map
          ops.observations).sum = 0 := by
        simp [List.map_replicate, hfresh]
      have hinc' := hinc (h.bucketMaker ()) v
      omega

/-- A successful sequence of `Add` calls under one label set raises the
signature's total bucket count by the number of calls. -/
theorem addSequence_count (ops : BucketOps σ) (labels : Option (List (String × String)))
    (hinc : ∀ s w, ops.observations (ops.add s w) = ops.observations s + 1) :
    ∀ (vs : List ℚ) (h : histogram σ), ops.observations (h.bucketMaker ()) = 0 →
      ∀ hfinal, addSequence ops labels h vs = some hfinal →
      observationTotalFor ops hfinal (LabelsToSignature (labels.getD [])) =
        observationTotalFor ops h (LabelsToSignature (labels.getD [])) + vs.length := by
  intro vs
  induction vs with
  | nil =>
    intro h _ hfinal hrun
    have hE := Option.some.inj hrun
    subst hE
    simp
  | cons v rest ih =>
    intro h hfresh hfinal hrun
    cases hAdd : Add ops h labels v with
    | none => simp [addSequence, hAdd] at hrun
    | some h1 =>
      simp only [addSequence, hAdd] at hrun
      obtain ⟨hcount, hmaker⟩ := Add_step_count ops h labels v h1 hfresh hinc hAdd
      have hih := ih h1 (by rw [hmaker]; exact hfresh) hfinal hrun
      simp only [List.length_cons]
      omega

/-- C7: for every boundary set and every finite sequence of `Add` calls under
a single label signature — with a Bucket whose count is 0 when fresh and
increments once per ingested value — after the sequence completes, the sum of
the signature's bucket counts equals the number of `Add` calls made. -/
theorem c7_count_invariant (ops : BucketOps σ) (specification : HistogramSpecification σ)
    (hfresh : ops.observations (specification.BucketBuilder ()) = 0)
    (hinc : ∀ s w, ops.observations (ops.add s w) = ops.observations s + 1)
    (labels : Option (List (String × String))) (vs : List ℚ) (hfinal : histogram σ)
    (hrun : addSequence ops labels (NewHistogram specification) vs = some hfinal) :
    observationTotalFor ops hfinal (LabelsToSignature (labels.getD [])) = vs.length := by
  have h0 : observationTotalFor ops (NewHistogram specification)
      (LabelsToSignature (labels.getD [])) = 0 := rfl
  have := addSequence_count ops labels hinc vs (NewHistogram specification) hfresh hfinal hrun
  omega

/-- Witness for C7: ten Adds on boundaries `[0, 10, 20]` with exact-storage
buckets leave a total count of 10 under the empty label set. -/
theorem c7_count_invariant_witness :
    exactBucketOps.observations ((scenarioSpecification (fun _ => [])).BucketBuilder ()) = 0 ∧
    (∀ s w, exactBucketOps.observations (exactBucketOps.add s w) =
      exactBucketOps.observations s + 1) ∧
    addSequence exactBucketOps (some []) (NewHistogram (scenarioSpecification (fun _ => [])))
      [3, 3, 3, 3, 3, 25, 25, 25, 25, 25] = some scenarioFinal ∧
    observationTotalFor exactBucketOps scenarioFinal
      (LabelsToSignature ((some ([] : List (String × String))).getD [])) = 10 :=
  ⟨rfl, fun s w => by simp [exactBucketOps],
    by with_unfolding_all rfl,
    c7_count_invariant exactBucketOps (scenarioSpecification (fun _ => [])) rfl
      (fun s w => by simp [exactBucketOps]) (some [])
      [3, 3, 3, 3, 3, 25, 25, 25, 25, 25] scenarioFinal (by with_unfolding_all rfl)⟩

end ClientGolang
